import Mathlib

/-!
# Verification of the waybar_note synchronisation core

Shallow embedding of the reconciliation engine of `google_tasks_sync.py`
and the note store of `notes_manager.py`, with theorems settling the
spec's claims about them.

Modelling conventions:
* Python dicts are association lists with first-match lookup and
  replace-first-or-append insertion (Python assignment overwrites the value
  in place, iteration is insertion order).
* The mapping in `sync_state.json` is keyed by `str(note['id'])` and read
  back with `int(...)`; since every key the program writes is the decimal
  rendering of an integer id, keys are modelled directly as `Nat`.
* Network calls are driven by an environment (oracle) that decides, per
  call, whether the call raises `HttpError` and which fresh id a
  successful `insert` returns.
* `datetime.now(...)` values are opaque strings supplied by the
  environment.
-/

set_option maxHeartbeats 1000000

namespace WaybarNote

/-- Generic association-list lookup (first match), modelling Python `d[k]`
guarded by `k in d`. -/
def lookupA {κ α : Type} [DecidableEq κ] : List (κ × α) → κ → Option α
  | [], _ => none
  | (k', v) :: rest, k => if k' = k then some v else lookupA rest k

/-- Generic association-list insertion, modelling Python `d[k] = v`:
overwrite the existing binding in place, else append. -/
def insertA {κ α : Type} [DecidableEq κ] : List (κ × α) → κ → α → List (κ × α)
  | [], k, v => [(k, v)]
  | (k', v') :: rest, k, v =>
      if k' = k then (k, v) :: rest else (k', v') :: insertA rest k v

theorem lookupA_insertA_self {κ α : Type} [DecidableEq κ]
    (d : List (κ × α)) (k : κ) (v : α) :
    lookupA (insertA d k v) k = some v := by
  induction d with
  | nil => simp [insertA, lookupA]
  | cons kv rest ih =>
      by_cases h : kv.1 = k
      · simp [insertA, lookupA, h]
      · simp [insertA, lookupA, h, ih]

theorem lookupA_insertA_ne {κ α : Type} [DecidableEq κ]
    (d : List (κ × α)) (k k' : κ) (v : α) (h : k' ≠ k) :
    lookupA (insertA d k v) k' = lookupA d k' := by
  induction d with
  | nil => simp [insertA, lookupA, Ne.symm h]
  | cons kv rest ih =>
      by_cases hk : kv.1 = k
      · subst hk
        simp [insertA, lookupA, Ne.symm h]
      · by_cases hk' : kv.1 = k'
        · simp [insertA, lookupA, hk, hk', h]
        · simp [insertA, lookupA, hk, hk', ih]

theorem lookupA_isSome_insertA {κ α : Type} [DecidableEq κ]
    (d : List (κ × α)) (k k' : κ) (v : α) :
    (lookupA (insertA d k v) k').isSome ↔ k' = k ∨ (lookupA d k').isSome := by
  by_cases h : k' = k
  · subst h; simp [lookupA_insertA_self]
  · simp [lookupA_insertA_ne d k k' v h, h]

/-! ## Data model -/

/-- A local note, the dict built by `NotesManager.add_note`. -/
structure Note where
  id : Nat
  text : String
  done : Bool
  created : String
  completed : Option String
  deriving Repr, DecidableEq

/-- A remote Google task as consumed by the sync code: `id`, `title`,
`status` (`"needsAction"` or `"completed"`) and the optional `completed`
timestamp. -/
structure GTask where
  id : String
  title : String
  status : String
  completed : Option String
  deriving Repr, DecidableEq

/-- A remote task list (container): `id`, `title` and its tasks. -/
structure Container where
  id : String
  title : String
  tasks : List GTask
  deriving Repr, DecidableEq

/-- A value of `sync_state['mapping']`: either the structured dict
`{'task_id': ..., 'list_id': ..., 'list_name': ...}` written by the current
code, or a bare string (the legacy format). -/
inductive MappingVal where
  | legacy : String → MappingVal
  | entry : String → String → String → MappingVal
  deriving Repr, DecidableEq

/-- The remote task id carried by a mapping value (for the legacy format,
the string itself). -/
def MappingVal.task_id : MappingVal → String
  | .legacy t => t
  | .entry t _ _ => t

/-- The mapping of `sync_state.json`: local note id to mapping value. -/
abbrev Mapping := List (Nat × MappingVal)

def mappingKeys (m : Mapping) : List Nat := m.map Prod.fst

def mappingTids (m : Mapping) : List String :=
  m.map fun kv => kv.2.task_id

/-! ## Notes store (`notes_manager.py`) -/

/-- The `NotesManager` state: the in-memory `self.notes` list and the
content of the persisted `notes.json` file. -/
structure NotesFS where
  notes : List Note
  file : List Note
  deriving Repr, DecidableEq

/-- `NotesManager.save_notes` (lines 28-31): write the whole in-memory
list to the file. -/
def save_notes (s : NotesFS) : NotesFS := { s with file := s.notes }

/-- `NotesManager._generate_id` (lines 73-77): `1` on an empty store, else
`max(n['id'] for n in self.notes) + 1`. -/
def generate_id (notes : List Note) : Nat :=
  match notes with
  | [] => 1
  | _ => (notes.map Note.id).foldl max 0 + 1

/-- `NotesManager.add_note` (lines 33-44): append a fresh undone note and
persist. -/
def add_note (s : NotesFS) (text now : String) : NotesFS × Note :=
  let note : Note :=
    { id := generate_id s.notes, text := text, done := false,
      created := now, completed := none }
  (save_notes { s with notes := s.notes ++ [note] }, note)

/-- Body of the loop of `NotesManager.toggle_note`: toggle the first note
with the given id, report whether one was found. -/
def toggleFirst (notes : List Note) (note_id : Nat) (now : String) :
    List Note × Bool :=
  match notes with
  | [] => ([], false)
  | n :: rest =>
      if n.id = note_id then
        (({ n with
              done := (!n.done),
              completed := (if (!n.done) then some now else none) }) :: rest,
          true)
      else
        let r := toggleFirst rest note_id now
        (n :: r.1, r.2)

/-- `NotesManager.toggle_note` (lines 46-54): persists only when a note
with the id exists. -/
def toggle_note (s : NotesFS) (note_id : Nat) (now : String) :
    NotesFS × Bool :=
  let r := toggleFirst s.notes note_id now
  if r.2 then (save_notes { s with notes := r.1 }, true)
  else ({ s with notes := r.1 }, false)

/-- `NotesManager.delete_note` (lines 56-59). -/
def delete_note (s : NotesFS) (note_id : Nat) : NotesFS :=
  save_notes { s with notes := s.notes.filter fun n => n.id ≠ note_id }

/-! ## SyncState loading (`load_sync_state`, lines 34-42) -/

/-- A JSON value, as returned by `json.load`. -/
inductive JVal where
  | jnull
  | jbool : Bool → JVal
  | jnum : Int → JVal
  | jstr : String → JVal
  | jarr : List JVal → JVal
  | jobj : List (String × JVal) → JVal

/-- What reading the sync-state file can yield: the file is missing, its
bytes fail `json.load` (a `json.JSONDecodeError`), or they parse to a JSON
value. -/
inductive FileRead where
  | missing
  | undecodable
  | parsed : JVal → FileRead

/-- The empty sync state `{"mapping": {}, "last_sync": None}`. -/
def emptySyncStateJ : JVal :=
  .jobj [("mapping", .jobj []), ("last_sync", .jnull)]

/-- `GoogleTasksSync.load_sync_state` (lines 34-42): returns the empty
state when the file is missing or `json.load` raises `JSONDecodeError`;
whatever parses is returned as-is. -/
def load_sync_state (f : FileRead) : JVal :=
  match f with
  | .missing => emptySyncStateJ
  | .undecodable => emptySyncStateJ
  | .parsed v => v

/-! ## SyncState saving discipline (`save_sync_state`, lines 44-47) -/

/-- File-system operations relevant to the write discipline. `openTrunc`
is `open(path, 'w')` (truncates in place); `write` appends data to an open
file; `rename` atomically replaces the destination. -/
inductive FsOp where
  | openTrunc : String → FsOp
  | write : String → String → FsOp
  | rename : String → String → FsOp
  deriving Repr, DecidableEq

def syncStatePath : String := "sync_state.json"

/-- The file-system trace of `save_sync_state` (lines 44-47):
`open(SYNC_STATE_FILE, 'w')` truncates the target itself, then
`json.dump` writes the serialized state into it.  No temporary path, no
rename. -/
def save_sync_state_trace (payload : String) : List FsOp :=
  [.openTrunc syncStatePath, .write syncStatePath payload]

/-- A file system: path to content. -/
abbrev FsState := List (String × String)

def fsRead (fs : FsState) (p : String) : String := (lookupA fs p).getD ""

def fsApply (fs : FsState) : FsOp → FsState
  | .openTrunc p => insertA fs p ""
  | .write p d => insertA fs p (fsRead fs p ++ d)
  | .rename src dst => insertA fs dst (fsRead fs src)

/-- The file-system states a concurrent reader can observe, one after each
operation of a trace. -/
def observations (fs : FsState) : List FsOp → List FsState
  | [] => []
  | op :: rest =>
      let fs' := fsApply fs op
      fs' :: observations fs' rest

/-! ## The sync passes (`google_tasks_sync.py`) -/

/-- `'completed' if note['done'] else 'needsAction'` (lines 198, 219). -/
def statusOf (done : Bool) : String :=
  if done then "completed" else "needsAction"

/-- Observable events of a pass: a remote call being issued
(`tasks().insert/update/list(...).execute()`), the per-item log lines of
the pull pass, and `save_sync_state` being called. -/
inductive Ev where
  | createCall : String → String → String → Ev
  | updateCall : String → String → String → String → Ev
  | listTasksCall : String → Ev
  | createdLocally : String → Ev
  | updatedLocally : String → Ev
  | saveSyncState : Ev
  deriving Repr, DecidableEq

def Ev.isCreateCall : Ev → Bool
  | .createCall _ _ _ => true
  | _ => false

/-- Effect on the remote service of a successful `tasks().insert`: the new
task is stored in the list with the given id. -/
def remoteInsertTask (cs : List Container) (list_id : String) (t : GTask) :
    List Container :=
  match cs with
  | [] => []
  | c :: rest =>
      if c.id = list_id then { c with tasks := c.tasks ++ [t] } :: rest
      else c :: remoteInsertTask rest list_id t

/-- Effect on the remote service of a successful `tasks().update`: the
task with the given id in the given list gets the new title and status. -/
def remoteUpdateTask (cs : List Container) (list_id task_id title status : String) :
    List Container :=
  match cs with
  | [] => []
  | c :: rest =>
      if c.id = list_id then
        { c with
            tasks := c.tasks.map fun t =>
              if t.id = task_id then { t with title := title, status := status }
              else t } :: rest
      else c :: remoteUpdateTask rest list_id task_id title status

/-- The whole system state: the notes store, the persisted sync state
(mapping + last_sync) and the remote service. -/
structure SysState where
  fs : NotesFS
  mapping : Mapping
  last_sync : Option String
  remote : List Container
  deriving Repr, DecidableEq

/-- Environment of one push pass: whether `tasklists().list()` raises,
the outcome of the n-th `tasks().insert` call (`none` = `HttpError`,
`some g` = the id the service assigns), whether the n-th `tasks().update`
call succeeds, and the pass's `datetime.now(timezone.utc)`. -/
structure PushEnv where
  listFail : Bool
  createRes : Nat → Option String
  updateOk : Nat → Bool
  now : String

/-- Intermediate state of the loop of `sync_to_google` (lines 110-128).
`cIdx`/`uIdx` count the create/update calls issued so far; `aborted`
records an uncaught `TypeError` (a legacy string mapping value reaching
`mapping['task_id']`, line 117). -/
structure PushSt where
  mapping : Mapping
  remote : List Container
  evs : List Ev
  cIdx : Nat
  uIdx : Nat
  aborted : Bool
  deriving Repr

/-- The loop of `sync_to_google` (lines 110-128), one iteration per local
note.  A mapped note goes through `update_google_task` (per-item
`HttpError` caught there, lines 213-231); an unmapped note goes through
`create_google_task` (lines 193-211), and only a successful create inserts
a mapping entry. -/
def pushLoop (env : PushEnv) (dlid dlname : String) :
    List Note → PushSt → PushSt
  | [], st => st
  | note :: rest, st =>
        match lookupA st.mapping note.id with
        | some mv =>
            match mv with
            | .legacy _ => { st with aborted := true }
            | .entry task_id list_id _ =>
                let st' : PushSt :=
                  { st with
                      evs := st.evs ++
                        [.updateCall list_id task_id note.text (statusOf note.done)],
                      remote :=
                        if env.updateOk st.uIdx then
                          remoteUpdateTask st.remote list_id task_id note.text
                            (statusOf note.done)
                        else st.remote,
                      uIdx := st.uIdx + 1 }
                pushLoop env dlid dlname rest st'
        | none =>
            match env.createRes st.cIdx with
            | some g =>
                let t : GTask :=
                  { id := g, title := note.text, status := statusOf note.done,
                    completed := none }
                let st' : PushSt :=
                  { st with
                      evs := st.evs ++
                        [.createCall dlid note.text (statusOf note.done)],
                      remote := remoteInsertTask st.remote dlid t,
                      mapping := insertA st.mapping note.id (.entry g dlid dlname),
                      cIdx := st.cIdx + 1 }
                pushLoop env dlid dlname rest st'
            | none =>
                let st' : PushSt :=
                  { st with
                      evs := st.evs ++
                        [.createCall dlid note.text (statusOf note.done)],
                      cIdx := st.cIdx + 1 }
                pushLoop env dlid dlname rest st'

/-- Result of a pass: the new system state, the events of the pass, and
whether an uncaught exception escaped to the caller. -/
structure PassResult where
  state : SysState
  evs : List Ev
  raised : Bool
  deriving Repr

/-- `GoogleTasksSync.sync_to_google` (lines 94-132).  `get_all_task_lists`
returns `[]` on `HttpError` (lines 83-92); an empty list makes the pass
return before the loop.  Otherwise the first list is the default for new
tasks, the loop runs, and — unless a `TypeError` aborted it — `last_sync`
is set and `save_sync_state` is called once. -/
def sync_to_google (s : SysState) (env : PushEnv) : PassResult :=
  let task_lists := if env.listFail then [] else s.remote
  match task_lists with
  | [] => { state := s, evs := [], raised := false }
  | c0 :: _ =>
      let st := pushLoop env c0.id c0.title s.fs.notes
        { mapping := s.mapping, remote := s.remote, evs := [],
          cIdx := 0, uIdx := 0, aborted := false }
      if st.aborted then
        { state := { s with mapping := st.mapping, remote := st.remote },
          evs := st.evs, raised := true }
      else
        { state :=
            { s with
                mapping := st.mapping,
                remote := st.remote,
                last_sync := some env.now },
          evs := st.evs ++ [.saveSyncState], raised := false }

/-- Body of the loop of `GoogleTasksSync.update_local_note`
(lines 246-259): rewrite the first note whose id matches from the Google
task, report whether one was found. -/
def updateFirst (notes : List Note) (local_id : Nat) (g : GTask) (now : String) :
    List Note × Bool :=
  match notes with
  | [] => ([], false)
  | n :: rest =>
      if n.id = local_id then
        let done := g.status = "completed"
        (({ n with
              text := g.title,
              done := done,
              completed :=
                (if done then some (g.completed.getD now) else none) }) :: rest,
          true)
      else
        let r := updateFirst rest local_id g now
        (n :: r.1, r.2)

/-- `GoogleTasksSync.update_local_note` (lines 246-259): `save_notes` runs
only when a matching note was found (it is inside the loop body). -/
def update_local_note (fs : NotesFS) (local_id : Nat) (g : GTask)
    (now : String) : NotesFS :=
  let r := updateFirst fs.notes local_id g now
  if r.2 then save_notes { fs with notes := r.1 } else { fs with notes := r.1 }

/-- `GoogleTasksSync.create_local_note` (lines 233-244): `add_note` (which
persists), then — only for a completed task — flip the fresh note's status
in place and persist again. -/
def create_local_note (fs : NotesFS) (g : GTask) (now : String) :
    NotesFS × Note :=
  let r := add_note fs g.title now
  if g.status = "completed" then
    let note := { r.2 with
                    done := true,
                    completed := some (g.completed.getD now) }
    (save_notes { r.1 with notes := r.1.notes.dropLast ++ [note] }, note)
  else r

/-- The reverse mapping of `sync_from_google` (lines 144-151): iterate the
mapping in order; a dict value contributes its `task_id`, a bare string
(old format) contributes itself; later entries overwrite earlier ones. -/
def buildReverse (m : Mapping) : List (String × Nat) :=
  m.foldl
    (fun d kv =>
      match kv.2 with
      | .entry t _ _ => insertA d t kv.1
      | .legacy t => insertA d t kv.1)
    []

/-- Environment of one pull pass: whether `tasklists().list()` raises,
whether the `tasks().list` call of the n-th container raises, and the
pass's timestamp. -/
structure PullEnv where
  listFail : Bool
  itemsFail : Nat → Bool
  now : String

/-- Intermediate state of the pull pass. -/
structure PullSt where
  fs : NotesFS
  mapping : Mapping
  evs : List Ev
  deriving Repr

/-- The inner loop of `sync_from_google` (lines 169-184), one iteration
per Google task of one list: a task whose id is in the reverse mapping
updates the matching local note, any other task creates a local note and a
new mapping entry. -/
def pullTasks (rev : List (String × Nat)) (list_id list_name now : String) :
    List GTask → PullSt → PullSt
  | [], st => st
  | g :: rest, st =>
      match lookupA rev g.id with
      | some local_id =>
          let fs' := update_local_note st.fs local_id g now
          let evs' := st.evs ++
            (if (updateFirst st.fs.notes local_id g now).2 then
              [Ev.updatedLocally g.title] else [])
          pullTasks rev list_id list_name now rest
            { st with fs := fs', evs := evs' }
      | none =>
          let r := create_local_note st.fs g now
          pullTasks rev list_id list_name now rest
            { fs := r.1,
              mapping := insertA st.mapping r.2.id
                (.entry g.id list_id list_name),
              evs := st.evs ++ [Ev.createdLocally g.title] }

/-- The outer loop of `sync_from_google` (lines 154-187), one iteration
per task list.  The `try` wraps the `tasks().list` call: when it raises
`HttpError`, that container's tasks are skipped, and the loop continues
with the next container. -/
def pullContainers (env : PullEnv) (rev : List (String × Nat)) :
    List Container → Nat → PullSt → PullSt
  | [], _, st => st
  | c :: rest, idx, st =>
      let st' :=
        if env.itemsFail idx then
          { st with evs := st.evs ++ [Ev.listTasksCall c.id] }
        else
          pullTasks rev c.id c.title env.now c.tasks
            { st with evs := st.evs ++ [Ev.listTasksCall c.id] }
      pullContainers env rev rest (idx + 1) st'

/-- `GoogleTasksSync.sync_from_google` (lines 134-191): on an empty (or
failed) task-list enumeration the pass returns before doing anything;
otherwise the reverse mapping is built once, every container is visited,
and afterwards `last_sync` is set and `save_sync_state` is called once. -/
def sync_from_google (s : SysState) (env : PullEnv) : PassResult :=
  let task_lists := if env.listFail then [] else s.remote
  match task_lists with
  | [] => { state := s, evs := [], raised := false }
  | _ =>
      let rev := buildReverse s.mapping
      let st := pullContainers env rev task_lists 0
        { fs := s.fs, mapping := s.mapping, evs := [] }
      { state :=
          { s with
              fs := st.fs,
              mapping := st.mapping,
              last_sync := some env.now },
        evs := st.evs ++ [Ev.saveSyncState], raised := false }

/-! ## Derived notions used by the claims -/

/-- Whether a mapping value is in the structured (current) format. -/
def MappingVal.isStructured : MappingVal → Bool
  | .legacy _ => false
  | .entry _ _ _ => true

/-- No mapping value is a legacy bare string. -/
def noLegacy (m : Mapping) : Bool :=
  m.all fun kv => kv.2.isStructured

/-- The ids of all tasks listed by the remote service, across all
containers. -/
def remoteTids (cs : List Container) : List String :=
  (cs.flatMap Container.tasks).map GTask.id

/-- How many times `save_sync_state` was called in an event trace. -/
def countSave : List Ev → Nat
  | [] => 0
  | .saveSyncState :: rest => countSave rest + 1
  | .createCall _ _ _ :: rest => countSave rest
  | .updateCall _ _ _ _ :: rest => countSave rest
  | .listTasksCall _ :: rest => countSave rest
  | .createdLocally _ :: rest => countSave rest
  | .updatedLocally _ :: rest => countSave rest

/-- The system invariant behind claim C2: at most one mapping entry per
local id (no duplicate keys), no two mapping entries with the same remote
task id, and the remote service never lists two tasks with the same id. -/
def SysInv (s : SysState) : Prop :=
  (mappingKeys s.mapping).Nodup ∧ (mappingTids s.mapping).Nodup ∧
  (remoteTids s.remote).Nodup

/-- The claim's assumption on the remote service: each successful create
returns an id that is fresh — different from every task id the service
already holds and from every id recorded in the mapping — and distinct
create calls never return the same id. -/
def FreshPushEnv (s : SysState) (env : PushEnv) : Prop :=
  (∀ i g, env.createRes i = some g →
    g ∉ mappingTids s.mapping ∧ g ∉ remoteTids s.remote) ∧
  ∀ i j g, env.createRes i = some g → env.createRes j = some g → i = j

/-- One reconciliation pass: a push (under the freshness assumption on
created ids) or a pull. -/
inductive Step : SysState → SysState → Prop
  | push (s : SysState) (env : PushEnv) (hfresh : FreshPushEnv s env) :
      Step s (sync_to_google s env).state
  | pull (s : SysState) (env : PullEnv) :
      Step s (sync_from_google s env).state

/-- Reachability by any finite sequence of push and pull passes. -/
def Reachable : SysState → SysState → Prop := Relation.ReflTransGen Step

/-! ## Concrete states and environments used by witnesses -/

def nmEmpty : NotesFS := { notes := [], file := [] }

/-- A concrete one-note store for witnesses. -/
def noteW : Note :=
  { id := 1, text := "a", done := false, created := "t0", completed := none }

def nmW : NotesFS := { notes := [noteW], file := [noteW] }

/-- A concrete system state for witnesses: one note, empty mapping, one
empty remote list. -/
def sysW : SysState :=
  { fs := nmW, mapping := [], last_sync := none,
    remote := [{ id := "L0", title := "My Tasks", tasks := [] }] }

def envW1 : PushEnv :=
  { listFail := false, createRes := fun _ => some "g0",
    updateOk := fun _ => true, now := "n1" }

def envW2 : PushEnv :=
  { listFail := false, createRes := fun _ => some "g1",
    updateOk := fun _ => true, now := "n2" }

/-- A push environment whose single successful create returns the fresh
id `"g0"`. -/
def envWf : PushEnv :=
  { listFail := false,
    createRes := fun i => if i = 0 then some "g0" else none,
    updateOk := fun _ => true, now := "n1" }

/-- A push environment in which every create call fails with
`HttpError`. -/
def envFailW : PushEnv :=
  { listFail := false, createRes := fun _ => none,
    updateOk := fun _ => false, now := "n3" }

/-- A pull environment in which every per-container listing succeeds. -/
def envPullW : PullEnv :=
  { listFail := false, itemsFail := fun _ => false, now := "n4" }

/-- The per-entry shape the reverse index depends on: key and remote task
id of every mapping entry, in order. -/
def taskIdShape (m : Mapping) : List (Nat × String) :=
  m.map fun kv => (kv.1, kv.2.task_id)

/-- Whether an event is the remote create-or-update call the push pass
issues for the given note (same title and status payload). -/
def Ev.isCallFor (e : Ev) (note : Note) : Bool :=
  match e with
  | .createCall _ ti stt => ti = note.text && stt = statusOf note.done
  | .updateCall _ _ ti stt => ti = note.text && stt = statusOf note.done
  | _ => false

/-- The single remote task used by the legacy-format states. -/
def gtaskW : GTask :=
  { id := "abc123", title := "a", status := "needsAction", completed := none }

/-- A concrete state whose single note is mapped through a legacy bare
string value. -/
def sysLegacy : SysState :=
  { fs := nmW, mapping := [(1, .legacy "abc123")], last_sync := none,
    remote := [{ id := "L0", title := "My Tasks", tasks := [gtaskW] }] }

/-- The same state with the mapping value in the structured format. -/
def sysStructured : SysState :=
  { sysLegacy with mapping := [(1, .entry "abc123" "L0" "My Tasks")] }

/-! ## Helper lemmas -/

theorem init_le_foldl_max (l : List Nat) (a : Nat) : a ≤ l.foldl max a := by
  induction l generalizing a with
  | nil => exact le_refl a
  | cons b t ih => exact le_trans (le_max_left a b) (ih (max a b))

theorem le_foldl_max (l : List Nat) (a x : Nat) (hx : x ∈ l) :
    x ≤ l.foldl max a := by
  induction l generalizing a with
  | nil => cases hx
  | cons b t ih =>
      rcases List.mem_cons.mp hx with h | h
      · subst h
        exact le_trans (le_max_right a x) (init_le_foldl_max t (max a x))
      · exact ih (max a b) h

/-- A freshly generated id is strictly above every id in the store. -/
theorem generate_id_gt (notes : List Note) (n : Note) (hn : n ∈ notes) :
    n.id < generate_id notes := by
  match notes, hn with
  | m :: rest, hn =>
      have : n.id ≤ ((m :: rest).map Note.id).foldl max 0 :=
        le_foldl_max _ 0 n.id (List.mem_map_of_mem Note.id hn)
      exact Nat.lt_succ_of_le this

theorem toggleFirst_map_id (notes : List Note) (note_id : Nat) (now : String) :
    (toggleFirst notes note_id now).1.map Note.id = notes.map Note.id := by
  induction notes with
  | nil => rfl
  | cons n rest ih =>
      by_cases h : n.id = note_id <;> simp [toggleFirst, h, ih]

/-! ## Claim C4 — recovery on loading the sync-state file -/

/-- C4 counterexample: a file whose bytes are `[]` — valid JSON that is
not the expected structure — makes `load_sync_state` return `[]` itself,
not the empty state `{mapping: {}, last_sync: null}` (only
`json.JSONDecodeError` is caught, line 40). -/
theorem load_sync_state_cex :
    load_sync_state (.parsed (.jarr [])) ≠ emptySyncStateJ :=
  fun h => JVal.noConfusion h

/-- C4 amended: on a missing file or on bytes that fail JSON decoding,
`load_sync_state` returns the empty state without raising; bytes that
parse as JSON are returned as-is, even when they are not the expected
structure. -/
theorem load_sync_state_amended :
    load_sync_state .missing = emptySyncStateJ ∧
    load_sync_state .undecodable = emptySyncStateJ ∧
    ∀ v, load_sync_state (.parsed v) = v :=
  ⟨rfl, rfl, fun _ => rfl⟩

/-! ## Claim C6 — write discipline of `save_sync_state` -/

/-- C6 counterexample: `save_sync_state` opens the target file itself with
mode `'w'`, so with previous content `"OLD"` and new serialization
`"NEW"` a concurrent reader can observe a state that is neither — the
truncated file — refuting "a concurrent reader never observes a
half-written file". -/
theorem save_direct_write_cex :
    ¬ (∀ obs ∈ observations [(syncStatePath, "OLD")]
          (save_sync_state_trace "NEW"),
        fsRead obs syncStatePath = "OLD" ∨ fsRead obs syncStatePath = "NEW") := by
  decide

/-- C6 amended: `save_sync_state` writes the sync-state file in place
(truncate, then write), not via a temporary path and rename; hence for any
non-empty old content and non-empty serialization a concurrent reader can
observe the file in a state that is neither the old nor the new content. -/
theorem save_observable_partial (old payload : String)
    (h1 : old ≠ "") (h2 : payload ≠ "") :
    ∃ obs ∈ observations [(syncStatePath, old)] (save_sync_state_trace payload),
      fsRead obs syncStatePath ≠ old ∧ fsRead obs syncStatePath ≠ payload := by
  refine ⟨[(syncStatePath, "")], ?_, ?_, ?_⟩
  · simp [observations, save_sync_state_trace, fsApply, insertA, fsRead, lookupA]
  · simpa [fsRead, lookupA] using Ne.symm h1
  · simpa [fsRead, lookupA] using Ne.symm h2

/-- Witness for C6 amended at concrete contents. -/
theorem save_observable_partial_witness :
    ("OLD" : String) ≠ "" ∧ ("NEW" : String) ≠ "" ∧
    ∃ obs ∈ observations [(syncStatePath, "OLD")] (save_sync_state_trace "NEW"),
      fsRead obs syncStatePath ≠ "OLD" ∧ fsRead obs syncStatePath ≠ "NEW" :=
  ⟨by decide, by decide,
    save_observable_partial "OLD" "NEW" (by decide) (by decide)⟩

/-! ## Claim C9 — note id assignment -/

/-- C9 counterexample: ids are not unique over time.  On an empty store,
`add_note` assigns id 1; after deleting that note, the next `add_note`
assigns id 1 again — equal to, not strictly greater than, an id assigned
before. -/
theorem id_reuse_cex :
    (add_note nmEmpty "a" "t1").2.id = 1 ∧
    (add_note
        (delete_note (add_note nmEmpty "a" "t1").1
          (add_note nmEmpty "a" "t1").2.id)
        "b" "t2").2.id = 1 := by
  decide

/-- C9 amended: a newly created note's id is strictly greater than the id
of every note currently in the store (`max + 1`, or `1` on an empty
store) — so it is distinct from all ids currently present, but ids of
previously deleted notes can be reassigned — and store operations never
change the id of an existing note (toggling preserves the id list). -/
theorem id_fresh_amended (s : NotesFS) (text now tnow : String)
    (note_id : Nat) (n : Note) (hn : n ∈ s.notes) :
    n.id < (add_note s text now).2.id ∧
    (toggle_note s note_id tnow).1.notes.map Note.id = s.notes.map Note.id := by
  constructor
  · exact generate_id_gt s.notes n hn
  · by_cases h : (toggleFirst s.notes note_id tnow).2 <;>
      simp [toggle_note, save_notes, h, toggleFirst_map_id]

/-- Witness for C9 amended on a one-note store. -/
theorem id_fresh_amended_witness :
    noteW ∈ nmW.notes ∧
    noteW.id < (add_note nmW "b" "t1").2.id ∧
    (toggle_note nmW 1 "t2").1.notes.map Note.id = nmW.notes.map Note.id := by
  refine ⟨by decide, ?_⟩
  exact id_fresh_amended nmW "b" "t1" "t2" 1 noteW (by decide)

/-! ## Claim C1 — push is idempotent -/

theorem noLegacy_lookup {m : Mapping} {k : Nat} {v : MappingVal}
    (hnl : noLegacy m = true) (hv : lookupA m k = some v) :
    v.isStructured = true := by
  induction m with
  | nil => simp [lookupA] at hv
  | cons kv rest ih =>
      rcases List.all_eq_true.mp hnl kv (List.mem_cons_self kv rest) with h
      by_cases hk : kv.1 = k
      · simp [lookupA, hk] at hv
        exact hv ▸ h
      · exact ih (List.all_eq_true.mpr fun x hx =>
          List.all_eq_true.mp hnl x (List.mem_cons_of_mem kv hx))
          (by simpa [lookupA, hk] using hv)

theorem noLegacy_insertA {m : Mapping} {k : Nat} {t l n : String}
    (hnl : noLegacy m = true) :
    noLegacy (insertA m k (.entry t l n)) = true := by
  induction m with
  | nil => simp [insertA, noLegacy, MappingVal.isStructured]
  | cons kv rest ih =>
      rcases List.all_eq_true.mp hnl kv (List.mem_cons_self kv rest) with h
      have hrest : noLegacy rest = true :=
        List.all_eq_true.mpr fun x hx =>
          List.all_eq_true.mp hnl x (List.mem_cons_of_mem kv hx)
      by_cases hk : kv.1 = k
      · simp only [insertA, hk, if_pos rfl]
        exact List.all_eq_true.mpr fun x hx => by
          rcases List.mem_cons.mp hx with hx | hx
          · subst hx; rfl
          · exact List.all_eq_true.mp hrest x hx
      · simp only [insertA, hk, if_neg hk]
        exact List.all_eq_true.mpr fun x hx => by
          rcases List.mem_cons.mp hx with hx | hx
          · subst hx; exact h
          · exact List.all_eq_true.mp (ih hrest) x hx

/-- Entries present in the mapping survive a push loop unchanged: the loop
inserts only at ids that are unmapped at that point. -/
theorem pushLoop_lookup_mono (env : PushEnv) (dlid dlname : String)
    (notes : List Note) (st : PushSt) (k : Nat) (v : MappingVal)
    (hv : lookupA st.mapping k = some v) :
    lookupA (pushLoop env dlid dlname notes st).mapping k = some v := by
  induction notes generalizing st with
  | nil => exact hv
  | cons note rest ih =>
      rcases hm : lookupA st.mapping note.id with _ | mv
      · rcases hc : env.createRes st.cIdx with _ | g
        · simp only [pushLoop, hm, hc]
          exact ih _ hv
        · simp only [pushLoop, hm, hc]
          refine ih _ ?_
          have hk : k ≠ note.id := fun h => by
            rw [h, hm] at hv; exact Option.noConfusion hv
          simpa [lookupA_insertA_ne st.mapping note.id k _ hk] using hv
      · cases mv with
        | legacy t => simpa [pushLoop, hm] using hv
        | entry t l n =>
            simp only [pushLoop, hm]
            exact ih _ hv

/-- `remoteInsertTask` and `remoteUpdateTask` keep the number of
containers. -/
theorem remoteInsertTask_length (cs : List Container) (l : String) (t : GTask) :
    (remoteInsertTask cs l t).length = cs.length := by
  induction cs with
  | nil => rfl
  | cons c rest ih =>
      by_cases h : c.id = l <;> simp [remoteInsertTask, h, ih]

theorem remoteUpdateTask_length (cs : List Container) (l tid ti st : String) :
    (remoteUpdateTask cs l tid ti st).length = cs.length := by
  induction cs with
  | nil => rfl
  | cons c rest ih =>
      by_cases h : c.id = l <;> simp [remoteUpdateTask, h, ih]

theorem pushLoop_remote_length (env : PushEnv) (dlid dlname : String)
    (notes : List Note) (st : PushSt) :
    (pushLoop env dlid dlname notes st).remote.length = st.remote.length := by
  induction notes generalizing st with
  | nil => rfl
  | cons note rest ih =>
      rcases hm : lookupA st.mapping note.id with _ | mv
      · rcases hc : env.createRes st.cIdx with _ | g
        · simp only [pushLoop, hm, hc]
          exact ih _
        · simp only [pushLoop, hm, hc]
          rw [ih _]
          exact remoteInsertTask_length _ _ _
      · cases mv with
        | legacy t => simp [pushLoop, hm]
        | entry t l n =>
            simp only [pushLoop, hm]
            rw [ih _]
            by_cases hu : env.updateOk st.uIdx <;>
              simp [hu, remoteUpdateTask_length]

/-- First run: when every create succeeds and no mapping value is legacy,
the push loop completes without raising, keeps the mapping legacy-free,
and leaves every visited note mapped to a structured entry. -/
theorem pushLoop_maps_all (env : PushEnv) (dlid dlname : String)
    (notes : List Note) (st : PushSt)
    (hnl : noLegacy st.mapping = true)
    (hc : ∀ i, (env.createRes i).isSome) :
    (pushLoop env dlid dlname notes st).aborted = st.aborted ∧
    noLegacy (pushLoop env dlid dlname notes st).mapping = true ∧
    ∀ note ∈ notes, ∃ v,
      lookupA (pushLoop env dlid dlname notes st).mapping note.id = some v ∧
      v.isStructured = true := by
  induction notes generalizing st with
  | nil => exact ⟨rfl, hnl, fun note h => absurd h (List.not_mem_nil note)⟩
  | cons note rest ih =>
      rcases hm : lookupA st.mapping note.id with _ | mv
      · rcases hc' : env.createRes st.cIdx with _ | g
        · exact absurd (hc st.cIdx) (by simp [hc'])
        · simp only [pushLoop, hm, hc']
          have hself :
              lookupA (insertA st.mapping note.id
                (.entry g dlid dlname)) note.id =
              some (.entry g dlid dlname) :=
            lookupA_insertA_self st.mapping note.id _
          rcases ih ⟨insertA st.mapping note.id (.entry g dlid dlname),
              remoteInsertTask st.remote dlid
                ⟨g, note.text, statusOf note.done, none⟩,
              st.evs ++ [.createCall dlid note.text (statusOf note.done)],
              st.cIdx + 1, st.uIdx, st.aborted⟩
            (noLegacy_insertA hnl) with ⟨h1, h2, h3⟩
          refine ⟨h1, h2, fun n hn => ?_⟩
          rcases List.mem_cons.mp hn with hn | hn
          · subst hn
            exact ⟨.entry g dlid dlname,
              pushLoop_lookup_mono env dlid dlname rest _ _ _ hself, rfl⟩
          · exact h3 n hn
      · have hstr := noLegacy_lookup hnl hm
        cases mv with
        | legacy t => simp [MappingVal.isStructured] at hstr
        | entry t l n' =>
            simp only [pushLoop, hm]
            rcases ih ⟨st.mapping,
                if env.updateOk st.uIdx then
                  remoteUpdateTask st.remote l t note.text (statusOf note.done)
                else st.remote,
                st.evs ++ [.updateCall l t note.text (statusOf note.done)],
                st.cIdx, st.uIdx + 1, st.aborted⟩
              hnl with ⟨h1, h2, h3⟩
            refine ⟨h1, h2, fun n hn => ?_⟩
            rcases List.mem_cons.mp hn with hn | hn
            · subst hn
              exact ⟨.entry t l n',
                pushLoop_lookup_mono env dlid dlname rest _ _ _ hm, rfl⟩
            · exact h3 n hn

/-- Second run: when every note is already mapped to a structured entry,
the push loop changes nothing in the mapping, never raises, and appends
only update calls. -/
theorem pushLoop_all_updates (env : PushEnv) (dlid dlname : String)
    (notes : List Note) (st : PushSt)
    (hmapped : ∀ note ∈ notes, ∃ v,
      lookupA st.mapping note.id = some v ∧ v.isStructured = true) :
    (pushLoop env dlid dlname notes st).mapping = st.mapping ∧
    (pushLoop env dlid dlname notes st).aborted = st.aborted ∧
    ∀ e ∈ (pushLoop env dlid dlname notes st).evs,
      e ∈ st.evs ∨ e.isCreateCall = false := by
  induction notes generalizing st with
  | nil => exact ⟨rfl, rfl, fun e he => Or.inl he⟩
  | cons note rest ih =>
      rcases hmapped note (List.mem_cons_self note rest) with ⟨v, hv, hstr⟩
      cases v with
      | legacy t => simp [MappingVal.isStructured] at hstr
      | entry t l n' =>
          simp only [pushLoop, hv]
          rcases ih ⟨st.mapping,
              if env.updateOk st.uIdx then
                remoteUpdateTask st.remote l t note.text (statusOf note.done)
              else st.remote,
              st.evs ++ [.updateCall l t note.text (statusOf note.done)],
              st.cIdx, st.uIdx + 1, st.aborted⟩
            (fun n hn => hmapped n (List.mem_cons_of_mem note hn))
            with ⟨h1, h2, h3⟩
          refine ⟨h1, h2, fun e he => ?_⟩
          rcases h3 e he with h | h
          · rcases List.mem_append.mp h with h | h
            · exact Or.inl h
            · simp only [List.mem_singleton] at h
              subst h
              exact Or.inr rfl
          · exact Or.inr h

/-- C1: running the push pass twice in a row — no store or remote mutation
in between, every create of the first run succeeding (and the mapping in
the current structured format, so that no `TypeError` escapes the pass) —
adds no mapping entry in the second run and issues no create call in the
second run. -/
theorem push_idempotent (s : SysState) (env₁ env₂ : PushEnv)
    (hnl : noLegacy s.mapping = true)
    (h1 : env₁.listFail = false) (h2 : env₂.listFail = false)
    (hc : ∀ i, (env₁.createRes i).isSome) :
    (sync_to_google (sync_to_google s env₁).state env₂).state.mapping =
      (sync_to_google s env₁).state.mapping ∧
    ∀ e ∈ (sync_to_google (sync_to_google s env₁).state env₂).evs,
      e.isCreateCall = false := by
  rcases hr : s.remote with _ | ⟨c0, cs⟩
  · simp [sync_to_google, h1, h2, hr]
  · obtain ⟨habort, hnl1, hmapped⟩ :=
      pushLoop_maps_all env₁ c0.id c0.title s.fs.notes
        ⟨s.mapping, c0 :: cs, [], 0, 0, false⟩ hnl hc
    have hlen : (pushLoop env₁ c0.id c0.title s.fs.notes
        ⟨s.mapping, c0 :: cs, [], 0, 0, false⟩).remote.length =
        cs.length + 1 := by
      rw [pushLoop_remote_length]
      rfl
    generalize hst₁ : pushLoop env₁ c0.id c0.title s.fs.notes
      ⟨s.mapping, c0 :: cs, [], 0, 0, false⟩ = st₁ at habort hmapped hlen
    have habf : st₁.aborted = false := habort
    set s₁ : SysState :=
      { s with
          mapping := st₁.mapping,
          remote := st₁.remote,
          last_sync := some env₁.now } with hs₁
    have hrun1 : sync_to_google s env₁ =
        ⟨s₁, st₁.evs ++ [.saveSyncState], false⟩ := by
      simp [sync_to_google, h1, hr, hst₁, habf, hs₁]
    rcases hr₂ : st₁.remote with _ | ⟨d0, ds⟩
    · rw [hr₂] at hlen
      simp at hlen
    · obtain ⟨hm₂, hab₂, hev₂⟩ :=
        pushLoop_all_updates env₂ d0.id d0.title s.fs.notes
          ⟨st₁.mapping, d0 :: ds, [], 0, 0, false⟩ hmapped
      have hab₂f : (pushLoop env₂ d0.id d0.title s.fs.notes
          ⟨st₁.mapping, d0 :: ds, [], 0, 0, false⟩).aborted = false := hab₂
      have hrun2 : sync_to_google s₁ env₂ =
          ⟨{ s₁ with
              mapping := (pushLoop env₂ d0.id d0.title s.fs.notes
                ⟨st₁.mapping, d0 :: ds, [], 0, 0, false⟩).mapping,
              remote := (pushLoop env₂ d0.id d0.title s.fs.notes
                ⟨st₁.mapping, d0 :: ds, [], 0, 0, false⟩).remote,
              last_sync := some env₂.now },
            (pushLoop env₂ d0.id d0.title s.fs.notes
              ⟨st₁.mapping, d0 :: ds, [], 0, 0, false⟩).evs ++
              [.saveSyncState], false⟩ := by
        simp [sync_to_google, h2, hs₁, hr₂, hab₂f]
      rw [hrun1]
      show (sync_to_google s₁ env₂).state.mapping = s₁.mapping ∧
        ∀ e ∈ (sync_to_google s₁ env₂).evs, e.isCreateCall = false
      rw [hrun2]
      refine ⟨by simp [hm₂, hs₁], ?_⟩
      intro e he
      rcases List.mem_append.mp he with h | h
      · rcases hev₂ e h with h' | h'
        · simp at h'
        · exact h'
      · simp only [List.mem_singleton] at h
        subst h
        rfl

/-- Witness for C1 on a concrete one-note state. -/
theorem push_idempotent_witness :
    noLegacy sysW.mapping = true ∧
    envW1.listFail = false ∧ envW2.listFail = false ∧
    (∀ i, ((envW1.createRes i).isSome : Bool)) ∧
    ((sync_to_google (sync_to_google sysW envW1).state envW2).state.mapping =
        (sync_to_google sysW envW1).state.mapping ∧
      ∀ e ∈ (sync_to_google (sync_to_google sysW envW1).state envW2).evs,
        e.isCreateCall = false) :=
  ⟨by decide, rfl, rfl, fun i => rfl,
    push_idempotent sysW envW1 envW2 (by decide) rfl rfl (fun i => rfl)⟩

/-! ## Claim C2 — mapping uniqueness is preserved by push and pull -/

theorem remoteTids_cons (c : Container) (rest : List Container) :
    remoteTids (c :: rest) = c.tasks.map GTask.id ++ remoteTids rest := by
  simp [remoteTids]

theorem mem_map_insertA {κ α β : Type} [DecidableEq κ] {d : List (κ × α)}
    {k : κ} {v : α} {f : κ × α → β} {y : β}
    (hy : y ∈ (insertA d k v).map f) : y = f (k, v) ∨ y ∈ d.map f := by
  induction d with
  | nil => simpa [insertA] using hy
  | cons kv rest ih =>
      by_cases h : kv.1 = k
      · simp only [insertA, if_pos h, List.map_cons, List.mem_cons] at hy
        rcases hy with hy | hy
        · exact Or.inl hy
        · exact Or.inr (by
            simp only [List.map_cons, List.mem_cons]
            exact Or.inr hy)
      · simp only [insertA, if_neg h, List.map_cons, List.mem_cons] at hy
        rcases hy with hy | hy
        · exact Or.inr (by simp [hy])
        · rcases ih hy with h' | h'
          · exact Or.inl h'
          · exact Or.inr (by simp [h'])

theorem keys_nodup_insertA {κ α : Type} [DecidableEq κ] {d : List (κ × α)}
    {k : κ} {v : α} (h : (d.map Prod.fst).Nodup) :
    ((insertA d k v).map Prod.fst).Nodup := by
  induction d with
  | nil => simp [insertA]
  | cons kv rest ih =>
      by_cases hk : kv.1 = k
      · subst hk
        simpa [insertA] using h
      · simp only [List.map_cons, List.nodup_cons] at h
        obtain ⟨h1, h2⟩ := h
        simp only [insertA, if_neg hk, List.map_cons, List.nodup_cons]
        refine ⟨fun hmem => ?_, ih h2⟩
        rcases mem_map_insertA hmem with h' | h'
        · exact hk h'
        · exact h1 h'

theorem map_nodup_insertA {κ α β : Type} [DecidableEq κ] {d : List (κ × α)}
    {k : κ} {v : α} {f : κ × α → β}
    (hN : (d.map f).Nodup) (hv : f (k, v) ∉ d.map f) :
    ((insertA d k v).map f).Nodup := by
  induction d with
  | nil => simp [insertA]
  | cons kv rest ih =>
      simp only [List.map_cons, List.nodup_cons] at hN
      obtain ⟨h1, h2⟩ := hN
      simp only [List.map_cons, List.mem_cons] at hv
      push_neg at hv
      obtain ⟨hv1, hv2⟩ := hv
      by_cases hk : kv.1 = k
      · simp only [insertA, if_pos hk, List.map_cons, List.nodup_cons]
        exact ⟨hv2, h2⟩
      · simp only [insertA, if_neg hk, List.map_cons, List.nodup_cons]
        refine ⟨fun hmem => ?_, ih h2 hv2⟩
        rcases mem_map_insertA hmem with h' | h'
        · exact hv1 h'.symm
        · exact h1 h'

theorem mem_mappingTids_insertA {m : Mapping} {k : Nat} {v : MappingVal}
    {x : String} (hx : x ∈ mappingTids (insertA m k v)) :
    x = v.task_id ∨ x ∈ mappingTids m :=
  mem_map_insertA hx

theorem mappingTids_nodup_insertA {m : Mapping} {k : Nat} {v : MappingVal}
    (hT : (mappingTids m).Nodup) (hv : v.task_id ∉ mappingTids m) :
    (mappingTids (insertA m k v)).Nodup :=
  map_nodup_insertA hT hv

theorem lookupA_buildReverse_isSome (m : Mapping) (g : String) :
    (lookupA (buildReverse m) g).isSome ↔ g ∈ mappingTids m := by
  suffices h : ∀ acc : List (String × Nat),
      (lookupA (List.foldl (fun d kv =>
          match kv.2 with
          | .entry t _ _ => insertA d t kv.1
          | .legacy t => insertA d t kv.1) acc m) g).isSome ↔
        g ∈ mappingTids m ∨ (lookupA acc g).isSome by
    have h2 := h []
    simpa [buildReverse, lookupA] using h2
  intro acc
  induction m generalizing acc with
  | nil => simp [mappingTids]
  | cons kv rest ih =>
      obtain ⟨k', v'⟩ := kv
      cases v' with
      | entry t l n =>
          simp only [List.foldl_cons]
          rw [ih]
          simp only [mappingTids, List.map_cons, List.mem_cons,
            MappingVal.task_id]
          rw [lookupA_isSome_insertA]
          constructor
          · rintro (h | h | h)
            · exact Or.inl (Or.inr (by simpa [mappingTids] using h))
            · exact Or.inl (Or.inl h)
            · exact Or.inr h
          · rintro ((h | h) | h)
            · exact Or.inr (Or.inl h)
            · exact Or.inl (by simpa [mappingTids] using h)
            · exact Or.inr (Or.inr h)
      | legacy t =>
          simp only [List.foldl_cons]
          rw [ih]
          simp only [mappingTids, List.map_cons, List.mem_cons,
            MappingVal.task_id]
          rw [lookupA_isSome_insertA]
          constructor
          · rintro (h | h | h)
            · exact Or.inl (Or.inr (by simpa [mappingTids] using h))
            · exact Or.inl (Or.inl h)
            · exact Or.inr h
          · rintro ((h | h) | h)
            · exact Or.inr (Or.inl h)
            · exact Or.inl (by simpa [mappingTids] using h)
            · exact Or.inr (Or.inr h)

theorem buildReverse_none {m : Mapping} {g : String}
    (h : lookupA (buildReverse m) g = none) : g ∉ mappingTids m := by
  intro hg
  have h2 := (lookupA_buildReverse_isSome m g).mpr hg
  rw [h] at h2
  simp at h2

theorem mem_remoteTids_insertTask {cs : List Container} {l : String}
    {t : GTask} {x : String}
    (hx : x ∈ remoteTids (remoteInsertTask cs l t)) :
    x = t.id ∨ x ∈ remoteTids cs := by
  induction cs with
  | nil => simp [remoteInsertTask, remoteTids] at hx
  | cons c rest ih =>
      by_cases h : c.id = l
      · simp only [remoteInsertTask, if_pos h] at hx
        rw [remoteTids_cons] at hx
        simp only [remoteTids_cons, List.mem_append]
        simp only [List.map_append, List.mem_append, List.map_cons,
          List.map_nil, List.mem_singleton] at hx
        tauto
      · simp only [remoteInsertTask, if_neg h] at hx
        rw [remoteTids_cons] at hx
        simp only [remoteTids_cons, List.mem_append]
        rcases List.mem_append.mp hx with h' | h'
        · tauto
        · rcases ih h' with h'' | h'' <;> tauto

theorem remoteTids_insertTask_nodup {cs : List Container} {l : String}
    {t : GTask} (hN : (remoteTids cs).Nodup) (ht : t.id ∉ remoteTids cs) :
    (remoteTids (remoteInsertTask cs l t)).Nodup := by
  induction cs with
  | nil => simp [remoteInsertTask, remoteTids]
  | cons c rest ih =>
      rw [remoteTids_cons] at hN ht
      by_cases h : c.id = l
      · simp only [remoteInsertTask, if_pos h]
        rw [remoteTids_cons]
        simp only [List.map_append, List.map_cons, List.map_nil]
        rw [List.append_assoc, List.singleton_append, List.nodup_middle]
        exact List.nodup_cons.mpr ⟨ht, hN⟩
      · simp only [remoteInsertTask, if_neg h]
        rw [remoteTids_cons]
        rw [List.nodup_append] at hN ⊢
        obtain ⟨h1, h2, h3⟩ := hN
        refine ⟨h1, ih h2 (fun hm => ht (List.mem_append.mpr (Or.inr hm))), ?_⟩
        intro x hx1 hx2
        rcases mem_remoteTids_insertTask hx2 with h' | h'
        · subst h'
          exact ht (List.mem_append.mpr (Or.inl hx1))
        · exact h3 hx1 h'

theorem remoteTids_updateTask (cs : List Container) (l tid ti stt : String) :
    remoteTids (remoteUpdateTask cs l tid ti stt) = remoteTids cs := by
  induction cs with
  | nil => rfl
  | cons c rest ih =>
      by_cases h : c.id = l
      · simp only [remoteUpdateTask, if_pos h]
        rw [remoteTids_cons, remoteTids_cons]
        refine congrArg₂ (· ++ ·) ?_ rfl
        rw [List.map_map]
        refine List.map_congr_left fun a ha => ?_
        by_cases h' : a.id = tid <;> simp [h']
      · simp only [remoteUpdateTask, if_neg h]
        rw [remoteTids_cons, remoteTids_cons, ih]

/-- The push loop preserves the three uniqueness invariants, given that
every id a successful create returns is fresh for the state at hand and
distinct create calls return distinct ids. -/
theorem pushLoop_inv (env : PushEnv) (dlid dlname : String)
    (notes : List Note) (st : PushSt)
    (hK : (mappingKeys st.mapping).Nodup)
    (hT : (mappingTids st.mapping).Nodup)
    (hR : (remoteTids st.remote).Nodup)
    (hfresh : ∀ i g, env.createRes i = some g → st.cIdx ≤ i →
        g ∉ mappingTids st.mapping ∧ g ∉ remoteTids st.remote)
    (hinj : ∀ i j g, env.createRes i = some g → env.createRes j = some g →
        i = j) :
    (mappingKeys (pushLoop env dlid dlname notes st).mapping).Nodup ∧
    (mappingTids (pushLoop env dlid dlname notes st).mapping).Nodup ∧
    (remoteTids (pushLoop env dlid dlname notes st).remote).Nodup := by
  induction notes generalizing st with
  | nil => exact ⟨hK, hT, hR⟩
  | cons note rest ih =>
      rcases hm : lookupA st.mapping note.id with _ | mv
      · rcases hc : env.createRes st.cIdx with _ | g
        · simp only [pushLoop, hm, hc]
          exact ih ⟨st.mapping, st.remote,
              st.evs ++ [Ev.createCall dlid note.text (statusOf note.done)],
              st.cIdx + 1, st.uIdx, st.aborted⟩
            hK hT hR
            (fun i g' hg hi => hfresh i g' hg (Nat.le_of_succ_le hi))
        · simp only [pushLoop, hm, hc]
          have hfg := hfresh st.cIdx g hc (le_refl _)
          refine ih ⟨insertA st.mapping note.id (.entry g dlid dlname),
              remoteInsertTask st.remote dlid
                ⟨g, note.text, statusOf note.done, none⟩,
              st.evs ++ [Ev.createCall dlid note.text (statusOf note.done)],
              st.cIdx + 1, st.uIdx, st.aborted⟩
            (keys_nodup_insertA hK)
            (mappingTids_nodup_insertA hT hfg.1)
            (remoteTids_insertTask_nodup hR hfg.2)
            ?_
          intro i g' hg hi
          dsimp only at hi
          have hne : g' ≠ g := by
            intro he
            subst he
            have := hinj i st.cIdx g' hg hc
            omega
          have hold := hfresh i g' hg (by omega)
          constructor
          · intro hmem
            rcases mem_mappingTids_insertA hmem with h' | h'
            · exact hne h'
            · exact hold.1 h'
          · intro hmem
            rcases mem_remoteTids_insertTask hmem with h' | h'
            · exact hne h'
            · exact hold.2 h'
      · cases mv with
        | legacy t =>
            simp only [pushLoop, hm]
            exact ⟨hK, hT, hR⟩
        | entry t l n' =>
            simp only [pushLoop, hm]
            by_cases hu : env.updateOk st.uIdx
            · rw [if_pos hu]
              exact ih ⟨st.mapping,
                  remoteUpdateTask st.remote l t note.text (statusOf note.done),
                  st.evs ++ [Ev.updateCall l t note.text (statusOf note.done)],
                  st.cIdx, st.uIdx + 1, st.aborted⟩
                hK hT (by rw [remoteTids_updateTask]; exact hR)
                (fun i g hg hi =>
                  ⟨(hfresh i g hg hi).1,
                    by rw [remoteTids_updateTask]; exact (hfresh i g hg hi).2⟩)
            · rw [if_neg hu]
              exact ih ⟨st.mapping, st.remote,
                  st.evs ++ [Ev.updateCall l t note.text (statusOf note.done)],
                  st.cIdx, st.uIdx + 1, st.aborted⟩
                hK hT hR hfresh

/-- A push pass preserves the system invariant under the freshness
assumption on created ids. -/
theorem sync_to_google_inv (s : SysState) (env : PushEnv)
    (hfresh : FreshPushEnv s env) (hinv : SysInv s) :
    SysInv (sync_to_google s env).state := by
  obtain ⟨hK, hT, hR⟩ := hinv
  by_cases hl : env.listFail
  · simp only [sync_to_google, hl, if_pos rfl, if_true]
    exact ⟨hK, hT, hR⟩
  · rcases hr : s.remote with _ | ⟨c0, cs⟩
    · simp [sync_to_google, hl, hr]
      exact ⟨hK, hT, hR⟩
    · obtain ⟨h1, h2, h3⟩ := pushLoop_inv env c0.id c0.title s.fs.notes
        ⟨s.mapping, c0 :: cs, [], 0, 0, false⟩ hK hT
        (by rw [← hr]; exact hR)
        (fun i g hg _ =>
          ⟨(hfresh.1 i g hg).1, by rw [← hr]; exact (hfresh.1 i g hg).2⟩)
        hfresh.2
      by_cases hab : (pushLoop env c0.id c0.title s.fs.notes
          ⟨s.mapping, c0 :: cs, [], 0, 0, false⟩).aborted
      · simp [sync_to_google, hl, hr, hab]
        exact ⟨h1, h2, h3⟩
      · simp [sync_to_google, hl, hr, hab]
        exact ⟨h1, h2, h3⟩

/-- The inner pull loop preserves the mapping invariants.  `rev` is the
reverse mapping built from the mapping at pass start; the loop creates a
mapping entry only for a task id absent from `rev`, so freshness follows
when the listed task ids are distinct and not already mapped. -/
theorem pullTasks_inv (rev : List (String × Nat)) (lid lname now : String)
    (tasks : List GTask) (st : PullSt)
    (hK : (mappingKeys st.mapping).Nodup)
    (hT : (mappingTids st.mapping).Nodup)
    (hnew : ∀ g ∈ tasks, lookupA rev g.id = none →
        g.id ∉ mappingTids st.mapping)
    (hndp : (tasks.map GTask.id).Nodup) :
    (mappingKeys (pullTasks rev lid lname now tasks st).mapping).Nodup ∧
    (mappingTids (pullTasks rev lid lname now tasks st).mapping).Nodup ∧
    ∀ x ∈ mappingTids (pullTasks rev lid lname now tasks st).mapping,
      x ∈ mappingTids st.mapping ∨ x ∈ tasks.map GTask.id := by
  induction tasks generalizing st with
  | nil => exact ⟨hK, hT, fun x hx => Or.inl hx⟩
  | cons g rest ih =>
      simp only [List.map_cons, List.nodup_cons] at hndp
      obtain ⟨hgrest, hndp'⟩ := hndp
      rcases hl : lookupA rev g.id with _ | lid'
      · have hgid : g.id ∉ mappingTids st.mapping :=
          hnew g (List.mem_cons_self g rest) hl
        simp only [pullTasks, hl]
        have hnew' : ∀ g' ∈ rest, lookupA rev g'.id = none →
            g'.id ∉ mappingTids (insertA st.mapping
              (create_local_note st.fs g now).2.id
              (.entry g.id lid lname)) := by
          intro g' hg' hl' hmem
          rcases mem_mappingTids_insertA hmem with h' | h'
          · have hgg : g'.id = g.id := h'
            exact hgrest (hgg ▸ List.mem_map_of_mem GTask.id hg')
          · exact hnew g' (List.mem_cons_of_mem g hg') hl' h'
        obtain ⟨h1, h2, h3⟩ := ih ⟨(create_local_note st.fs g now).1,
            insertA st.mapping (create_local_note st.fs g now).2.id
              (.entry g.id lid lname),
            st.evs ++ [Ev.createdLocally g.title]⟩
          (keys_nodup_insertA hK)
          (mappingTids_nodup_insertA hT hgid)
          hnew' hndp'
        refine ⟨h1, h2, fun x hx => ?_⟩
        rcases h3 x hx with h' | h'
        · rcases mem_mappingTids_insertA h' with h'' | h''
          · exact Or.inr (by
              simp only [List.map_cons, List.mem_cons]
              exact Or.inl h'')
          · exact Or.inl h''
        · exact Or.inr (by
            simp only [List.map_cons, List.mem_cons]
            exact Or.inr h')
      · simp only [pullTasks, hl]
        obtain ⟨h1, h2, h3⟩ := ih ⟨update_local_note st.fs lid' g now,
            st.mapping,
            st.evs ++ (if (updateFirst st.fs.notes lid' g now).2 then
              [Ev.updatedLocally g.title] else [])⟩
          hK hT
          (fun g' hg' hl' => hnew g' (List.mem_cons_of_mem g hg') hl')
          hndp'
        refine ⟨h1, h2, fun x hx => ?_⟩
        rcases h3 x hx with h' | h'
        · exact Or.inl h'
        · exact Or.inr (by
            simp only [List.map_cons, List.mem_cons]
            exact Or.inr h')

/-- The outer pull loop preserves the mapping invariants, container by
container. -/
theorem pullContainers_inv (env : PullEnv) (rev : List (String × Nat))
    (cs : List Container) (idx : Nat) (st : PullSt)
    (hK : (mappingKeys st.mapping).Nodup)
    (hT : (mappingTids st.mapping).Nodup)
    (hnew : ∀ g ∈ cs.flatMap Container.tasks, lookupA rev g.id = none →
        g.id ∉ mappingTids st.mapping)
    (hndp : ((cs.flatMap Container.tasks).map GTask.id).Nodup) :
    (mappingKeys (pullContainers env rev cs idx st).mapping).Nodup ∧
    (mappingTids (pullContainers env rev cs idx st).mapping).Nodup ∧
    ∀ x ∈ mappingTids (pullContainers env rev cs idx st).mapping,
      x ∈ mappingTids st.mapping ∨
        x ∈ (cs.flatMap Container.tasks).map GTask.id := by
  induction cs generalizing idx st with
  | nil => exact ⟨hK, hT, fun x hx => Or.inl hx⟩
  | cons c rest ih =>
      rw [List.flatMap_cons, List.map_append, List.nodup_append] at hndp
      obtain ⟨hnc, hnrest, hdisj⟩ := hndp
      have hmemc : ∀ g ∈ c.tasks, g ∈ (c :: rest).flatMap Container.tasks := by
        intro g hg
        rw [List.flatMap_cons]
        exact List.mem_append.mpr (Or.inl hg)
      have hmemr : ∀ g ∈ rest.flatMap Container.tasks,
          g ∈ (c :: rest).flatMap Container.tasks := by
        intro g hg
        rw [List.flatMap_cons]
        exact List.mem_append.mpr (Or.inr hg)
      by_cases hf : env.itemsFail idx
      · simp only [pullContainers, hf, if_pos rfl, if_true]
        obtain ⟨h1, h2, h3⟩ := ih (idx + 1)
          ⟨st.fs, st.mapping, st.evs ++ [Ev.listTasksCall c.id]⟩
          hK hT (fun g hg hlg => hnew g (hmemr g hg) hlg) hnrest
        refine ⟨h1, h2, fun x hx => ?_⟩
        rcases h3 x hx with h' | h'
        · exact Or.inl h'
        · exact Or.inr (by
            rw [List.flatMap_cons, List.map_append]
            exact List.mem_append.mpr (Or.inr h'))
      · rw [pullContainers]
        rw [if_neg hf]
        obtain ⟨hK₁, hT₁, hsub₁⟩ := pullTasks_inv rev c.id c.title env.now
          c.tasks ⟨st.fs, st.mapping, st.evs ++ [Ev.listTasksCall c.id]⟩
          hK hT (fun g hg hlg => hnew g (hmemc g hg) hlg) hnc
        obtain ⟨h1, h2, h3⟩ := ih (idx + 1)
          (pullTasks rev c.id c.title env.now c.tasks
            ⟨st.fs, st.mapping, st.evs ++ [Ev.listTasksCall c.id]⟩)
          hK₁ hT₁
          (fun g hg hlg hmem => by
            rcases hsub₁ g.id hmem with h' | h'
            · exact hnew g (hmemr g hg) hlg h'
            · exact hdisj h' (List.mem_map_of_mem GTask.id hg))
          hnrest
        refine ⟨h1, h2, fun x hx => ?_⟩
        rcases h3 x hx with h' | h'
        · rcases hsub₁ x h' with h'' | h''
          · exact Or.inl h''
          · exact Or.inr (by
              rw [List.flatMap_cons, List.map_append]
              exact List.mem_append.mpr (Or.inl h''))
        · exact Or.inr (by
            rw [List.flatMap_cons, List.map_append]
            exact List.mem_append.mpr (Or.inr h'))

/-- A pull pass preserves the system invariant: new local notes are
created only for task ids that are not yet in the mapping, and the listed
ids are pairwise distinct by the remote invariant. -/
theorem sync_from_google_inv (s : SysState) (env : PullEnv)
    (hinv : SysInv s) : SysInv (sync_from_google s env).state := by
  obtain ⟨hK, hT, hR⟩ := hinv
  by_cases hl : env.listFail
  · simp only [sync_from_google, hl, if_pos rfl, if_true]
    exact ⟨hK, hT, hR⟩
  · rcases hr : s.remote with _ | ⟨c0, cs⟩
    · simp [sync_from_google, hl, hr]
      exact ⟨hK, hT, hR⟩
    · have hndp : (((c0 :: cs).flatMap Container.tasks).map GTask.id).Nodup := by
        have := hR
        rw [hr] at this
        exact this
      obtain ⟨h1, h2, h3⟩ := pullContainers_inv env (buildReverse s.mapping)
        (c0 :: cs) 0 ⟨s.fs, s.mapping, []⟩ hK hT
        (fun g _ hg => buildReverse_none hg) hndp
      simp [sync_from_google, hl, hr]
      refine ⟨h1, h2, ?_⟩
      rw [hr] at hR
      exact hR

/-- One pass — push or pull — preserves the system invariant. -/
theorem step_inv {s s' : SysState} (h : Step s s') (hinv : SysInv s) :
    SysInv s' := by
  cases h with
  | push env hfresh => exact sync_to_google_inv s env hfresh hinv
  | pull env => exact sync_from_google_inv s env hinv

/-- C2: in every state reachable from a state satisfying the invariant by
any sequence of push and pull passes — with the remote returning a fresh
id on each create — the mapping has at most one entry per local id and no
two distinct entries share a remote task id. -/
theorem mapping_unique_reachable (s₀ s : SysState) (h : Reachable s₀ s)
    (hinv : SysInv s₀) :
    (mappingKeys s.mapping).Nodup ∧
    ∀ a ∈ s.mapping, ∀ b ∈ s.mapping, a ≠ b →
      a.2.task_id ≠ b.2.task_id := by
  have hs : SysInv s := by
    induction h with
    | refl => exact hinv
    | tail _ hstep ih => exact step_inv hstep ih
  obtain ⟨hK, hT, _⟩ := hs
  refine ⟨hK, fun a ha b hb hab he => ?_⟩
  exact hab (List.inj_on_of_nodup_map hT ha hb he)

/-- Witness for C2: one push pass from a concrete valid state, with a
concrete fresh-id environment. -/
theorem mapping_unique_reachable_witness :
    SysInv sysW ∧
    ((mappingKeys (sync_to_google sysW envWf).state.mapping).Nodup ∧
      ∀ a ∈ (sync_to_google sysW envWf).state.mapping,
        ∀ b ∈ (sync_to_google sysW envWf).state.mapping, a ≠ b →
          a.2.task_id ≠ b.2.task_id) := by
  have hfresh : FreshPushEnv sysW envWf := by
    constructor
    · intro i g hg
      by_cases h : i = 0
      · subst h
        simp [envWf] at hg
        subst hg
        exact ⟨by decide, by decide⟩
      · simp [envWf, h] at hg
    · intro i j g hi hj
      by_cases h : i = 0
      · by_cases h' : j = 0
        · omega
        · simp [envWf, h'] at hj
      · simp [envWf, h] at hi
  exact ⟨⟨by decide, by decide, by decide⟩,
    mapping_unique_reachable sysW (sync_to_google sysW envWf).state
      (Relation.ReflTransGen.single (Step.push sysW envWf hfresh))
      ⟨by decide, by decide, by decide⟩⟩

/-! ## Claim C5 — legacy string mapping values -/

/-- C5 counterexample: with note 1 mapped through the legacy bare string
`"abc123"`, the push pass does not resolve the value to the remote task
id — `mapping['task_id']` on a string raises an uncaught `TypeError`
(line 117), so the pass aborts with no update call issued; with the
structured value, the same state produces the update call for
`"abc123"`. -/
theorem legacy_push_cex :
    (sync_to_google sysLegacy envW1).raised = true ∧
    (sync_to_google sysLegacy envW1).evs = [] ∧
    (sync_to_google sysStructured envW1).raised = false ∧
    (sync_to_google sysStructured envW1).evs =
      [Ev.updateCall "L0" "abc123" "a" "needsAction", Ev.saveSyncState] := by
  decide

theorem buildReverse_shape (m₁ m₂ : Mapping)
    (hshape : taskIdShape m₁ = taskIdShape m₂) :
    buildReverse m₁ = buildReverse m₂ := by
  suffices h : ∀ (m₁ m₂ : Mapping) (acc : List (String × Nat)),
      taskIdShape m₁ = taskIdShape m₂ →
      List.foldl (fun d kv =>
        match kv.2 with
        | .entry t _ _ => insertA d t kv.1
        | .legacy t => insertA d t kv.1) acc m₁ =
      List.foldl (fun d kv =>
        match kv.2 with
        | .entry t _ _ => insertA d t kv.1
        | .legacy t => insertA d t kv.1) acc m₂ from
    h m₁ m₂ [] hshape
  intro m₁
  induction m₁ with
  | nil =>
      intro m₂ acc hshape
      have : m₂ = [] := by
        cases m₂ with
        | nil => rfl
        | cons kv rest => simp [taskIdShape] at hshape
      subst this
      rfl
  | cons kv rest ih =>
      intro m₂ acc hshape
      cases m₂ with
      | nil => simp [taskIdShape] at hshape
      | cons kv' rest' =>
          simp only [taskIdShape, List.map_cons, List.cons.injEq,
            Prod.mk.injEq] at hshape
          obtain ⟨⟨hk, ht⟩, hrest⟩ := hshape
          simp only [List.foldl_cons]
          have hstep : ∀ (d : List (String × Nat)) (p : Nat × MappingVal),
              (match p.2 with
                | MappingVal.entry t _ _ => insertA d t p.1
                | MappingVal.legacy t => insertA d t p.1) =
              insertA d p.2.task_id p.1 := by
            intro d p
            cases h : p.2 <;> simp [MappingVal.task_id]
          rw [hstep acc kv, hstep acc kv', hk, ht]
          exact ih rest' _ hrest

/-- C5 amended: the pull pass's reverse-index construction reads a legacy
bare string as `{remote_task_id: value}` — any two mappings with the same
keys and remote task ids, legacy or structured, yield the same reverse
index — but the push pass's update path does not accept a legacy value: it
raises an uncaught `TypeError` that aborts the pass before issuing any
call for that note. -/
theorem legacy_resolution_amended (m₁ m₂ : Mapping)
    (hshape : taskIdShape m₁ = taskIdShape m₂)
    (env : PushEnv) (dlid dlname : String) (note : Note)
    (rest : List Note) (st : PushSt) (t : String)
    (hm : lookupA st.mapping note.id = some (.legacy t)) :
    buildReverse m₁ = buildReverse m₂ ∧
    (pushLoop env dlid dlname (note :: rest) st).aborted = true ∧
    (pushLoop env dlid dlname (note :: rest) st).evs = st.evs := by
  refine ⟨buildReverse_shape m₁ m₂ hshape, ?_, ?_⟩ <;>
    simp [pushLoop, hm]

/-- Witness for C5 amended on concrete legacy/structured mappings. -/
theorem legacy_resolution_amended_witness :
    taskIdShape [(1, MappingVal.legacy "abc123")] =
      taskIdShape [(1, MappingVal.entry "abc123" "L0" "My Tasks")] ∧
    lookupA [(1, MappingVal.legacy "abc123")] noteW.id =
      some (MappingVal.legacy "abc123") ∧
    (buildReverse [(1, MappingVal.legacy "abc123")] =
      buildReverse [(1, MappingVal.entry "abc123" "L0" "My Tasks")] ∧
    (pushLoop envW1 "L0" "My Tasks" [noteW]
      ⟨[(1, MappingVal.legacy "abc123")], [], [], 0, 0, false⟩).aborted = true ∧
    (pushLoop envW1 "L0" "My Tasks" [noteW]
      ⟨[(1, MappingVal.legacy "abc123")], [], [], 0, 0, false⟩).evs = []) :=
  ⟨by decide, by decide,
    legacy_resolution_amended _ _ (by decide) envW1 "L0" "My Tasks" noteW []
      ⟨[(1, MappingVal.legacy "abc123")], [], [], 0, 0, false⟩ "abc123"
      (by decide)⟩

/-! ## Claim C3 — push-then-pull round-trip preserves text and done -/

/-- C3: a local note pushed (created remotely) and then immediately
pulled — the remote reporting back exactly the title and status that were
pushed — still has the same `text` and `done`.  Universal over the note's
content, the container, the assigned remote id and the timestamps of the
two passes. -/
theorem push_pull_roundtrip (n : Note) (lid lname g now1 now2 : String) :
    ∃ n' : Note,
      (sync_from_google
          (sync_to_google
            ⟨⟨[n], [n]⟩, [], none, [⟨lid, lname, []⟩]⟩
            ⟨false, fun _ => some g, fun _ => true, now1⟩).state
          ⟨false, fun _ => false, now2⟩).state.fs.notes = [n'] ∧
      n'.text = n.text ∧ n'.done = n.done := by
  cases hd : n.done <;>
    simp [sync_to_google, sync_from_google, pushLoop, pullContainers,
      pullTasks, buildReverse, insertA, lookupA, update_local_note,
      updateFirst, create_local_note, add_note, save_notes,
      remoteInsertTask, statusOf, hd]

/-! ## Claim C7 — per-item and per-container error containment -/

theorem pushLoop_evs_mono (env : PushEnv) (dlid dlname : String)
    (notes : List Note) (st : PushSt) (e : Ev) (he : e ∈ st.evs) :
    e ∈ (pushLoop env dlid dlname notes st).evs := by
  induction notes generalizing st with
  | nil => exact he
  | cons note rest ih =>
      rcases hm : lookupA st.mapping note.id with _ | mv
      · rcases hc : env.createRes st.cIdx with _ | g
        · simp only [pushLoop, hm, hc]
          exact ih _ (List.mem_append.mpr (Or.inl he))
        · simp only [pushLoop, hm, hc]
          exact ih _ (List.mem_append.mpr (Or.inl he))
      · cases mv with
        | legacy t => simpa [pushLoop, hm] using he
        | entry t l n' =>
            simp only [pushLoop, hm]
            exact ih _ (List.mem_append.mpr (Or.inl he))

/-- Every note of the list gets its remote call attempted — an earlier
item's failure (a create returning `none` or an update failing) never
stops the loop. -/
theorem pushLoop_attempts_all (env : PushEnv) (dlid dlname : String)
    (notes : List Note) (st : PushSt)
    (hnl : noLegacy st.mapping = true) :
    ∀ note ∈ notes, ∃ e ∈ (pushLoop env dlid dlname notes st).evs,
      e.isCallFor note = true := by
  induction notes generalizing st with
  | nil => intro note h; cases h
  | cons note0 rest ih =>
      intro note hmem
      rcases hm : lookupA st.mapping note0.id with _ | mv
      · rcases hc : env.createRes st.cIdx with _ | g
        · simp only [pushLoop, hm, hc]
          rcases List.mem_cons.mp hmem with h | h
          · subst h
            refine ⟨Ev.createCall dlid note.text (statusOf note.done),
              pushLoop_evs_mono env dlid dlname rest _ _
                (List.mem_append.mpr (Or.inr (by simp))), ?_⟩
            simp [Ev.isCallFor]
          · exact ih ⟨st.mapping, st.remote,
              st.evs ++ [Ev.createCall dlid note0.text (statusOf note0.done)],
              st.cIdx + 1, st.uIdx, st.aborted⟩ hnl note h
        · simp only [pushLoop, hm, hc]
          rcases List.mem_cons.mp hmem with h | h
          · subst h
            refine ⟨Ev.createCall dlid note.text (statusOf note.done),
              pushLoop_evs_mono env dlid dlname rest _ _
                (List.mem_append.mpr (Or.inr (by simp))), ?_⟩
            simp [Ev.isCallFor]
          · exact ih ⟨insertA st.mapping note0.id (.entry g dlid dlname),
              remoteInsertTask st.remote dlid
                ⟨g, note0.text, statusOf note0.done, none⟩,
              st.evs ++ [Ev.createCall dlid note0.text (statusOf note0.done)],
              st.cIdx + 1, st.uIdx, st.aborted⟩
              (noLegacy_insertA hnl) note h
      · cases mv with
        | legacy t =>
            have := noLegacy_lookup hnl hm
            simp [MappingVal.isStructured] at this
        | entry t l n' =>
            simp only [pushLoop, hm]
            rcases List.mem_cons.mp hmem with h | h
            · subst h
              refine ⟨Ev.updateCall l t note.text (statusOf note.done),
                pushLoop_evs_mono env dlid dlname rest _ _
                  (List.mem_append.mpr (Or.inr (by simp))), ?_⟩
              simp [Ev.isCallFor]
            · exact ih ⟨st.mapping,
                if env.updateOk st.uIdx then
                  remoteUpdateTask st.remote l t note0.text
                    (statusOf note0.done)
                else st.remote,
                st.evs ++ [Ev.updateCall l t note0.text (statusOf note0.done)],
                st.cIdx, st.uIdx + 1, st.aborted⟩ hnl note h

/-- The push loop never raises when the mapping holds no legacy value. -/
theorem pushLoop_no_abort (env : PushEnv) (dlid dlname : String)
    (notes : List Note) (st : PushSt)
    (hnl : noLegacy st.mapping = true) :
    (pushLoop env dlid dlname notes st).aborted = st.aborted := by
  induction notes generalizing st with
  | nil => rfl
  | cons note rest ih =>
      rcases hm : lookupA st.mapping note.id with _ | mv
      · rcases hc : env.createRes st.cIdx with _ | g
        · simp only [pushLoop, hm, hc]
          exact ih _ hnl
        · simp only [pushLoop, hm, hc]
          exact ih _ (noLegacy_insertA hnl)
      · cases mv with
        | legacy t =>
            have := noLegacy_lookup hnl hm
            simp [MappingVal.isStructured] at this
        | entry t l n' =>
            simp only [pushLoop, hm]
            exact ih _ hnl

theorem pullTasks_evs_mono (rev : List (String × Nat))
    (lid lname now : String) (tasks : List GTask) (st : PullSt) (e : Ev)
    (he : e ∈ st.evs) : e ∈ (pullTasks rev lid lname now tasks st).evs := by
  induction tasks generalizing st with
  | nil => exact he
  | cons g rest ih =>
      rcases hl : lookupA rev g.id with _ | lid'
      · simp only [pullTasks, hl]
        exact ih _ (List.mem_append.mpr (Or.inl he))
      · simp only [pullTasks, hl]
        exact ih _ (List.mem_append.mpr (Or.inl he))

theorem pullContainers_evs_mono (env : PullEnv) (rev : List (String × Nat))
    (cs : List Container) (idx : Nat) (st : PullSt) (e : Ev)
    (he : e ∈ st.evs) : e ∈ (pullContainers env rev cs idx st).evs := by
  induction cs generalizing idx st with
  | nil => exact he
  | cons c rest ih =>
      by_cases hf : env.itemsFail idx
      · simp only [pullContainers, hf, if_pos rfl, if_true]
        exact ih _ _ (List.mem_append.mpr (Or.inl he))
      · rw [pullContainers, if_neg hf]
        exact ih _ _ (pullTasks_evs_mono rev c.id c.title env.now c.tasks _ e
          (List.mem_append.mpr (Or.inl he)))

/-- Every task of a successfully listed container whose id is not in the
reverse mapping produces its `Created locally` line. -/
theorem pullTasks_creates (rev : List (String × Nat))
    (lid lname now : String) (tasks : List GTask) (st : PullSt) :
    ∀ g ∈ tasks, lookupA rev g.id = none →
      Ev.createdLocally g.title ∈ (pullTasks rev lid lname now tasks st).evs := by
  induction tasks generalizing st with
  | nil => intro g h; cases h
  | cons g0 rest ih =>
      intro g hmem hnone
      rcases List.mem_cons.mp hmem with h | h
      · subst h
        simp only [pullTasks, hnone]
        exact pullTasks_evs_mono rev lid lname now rest _ _
          (List.mem_append.mpr (Or.inr (by simp)))
      · rcases hl : lookupA rev g0.id with _ | lid'
        · simp only [pullTasks, hl]
          exact ih _ g h hnone
        · simp only [pullTasks, hl]
          exact ih _ g h hnone

/-- Per-container containment: every container's listing is attempted,
and every task of a container whose listing succeeded is either matched
through the reverse mapping or created locally — regardless of other
containers' failures. -/
theorem pullContainers_attempts (env : PullEnv) (rev : List (String × Nat))
    (cs : List Container) (idx : Nat) (st : PullSt) :
    (∀ c ∈ cs,
      Ev.listTasksCall c.id ∈ (pullContainers env rev cs idx st).evs) ∧
    ∀ j c, cs.get? j = some c → env.itemsFail (idx + j) = false →
      ∀ g ∈ c.tasks, (lookupA rev g.id).isSome = true ∨
        Ev.createdLocally g.title ∈ (pullContainers env rev cs idx st).evs := by
  induction cs generalizing idx st with
  | nil =>
      refine ⟨fun c h => absurd h (List.not_mem_nil c), fun j c h => ?_⟩
      simp at h
  | cons c0 rest ih =>
      constructor
      · intro c hc
        rcases List.mem_cons.mp hc with h | h
        · subst h
          by_cases hf : env.itemsFail idx
          · simp only [pullContainers, hf, if_pos rfl, if_true]
            exact pullContainers_evs_mono env rev rest (idx + 1) _ _
              (List.mem_append.mpr (Or.inr (by simp)))
          · rw [pullContainers, if_neg hf]
            exact pullContainers_evs_mono env rev rest (idx + 1) _ _
              (pullTasks_evs_mono rev c.id c.title env.now c.tasks _ _
                (List.mem_append.mpr (Or.inr (by simp))))
        · by_cases hf : env.itemsFail idx
          · simp only [pullContainers, hf, if_pos rfl, if_true]
            exact (ih (idx + 1) _).1 c h
          · rw [pullContainers, if_neg hf]
            exact (ih (idx + 1) _).1 c h
      · intro j c hj hfail g hg
        cases j with
        | zero =>
            simp only [List.get?] at hj
            injection hj with hj
            subst hj
            have hf : env.itemsFail idx = false := by simpa using hfail
            rw [pullContainers, if_neg (by simp [hf])]
            rcases hlook : lookupA rev g.id with _ | lid'
            · refine Or.inr (pullContainers_evs_mono env rev rest (idx + 1) _ _
                ?_)
              exact pullTasks_creates rev c0.id c0.title env.now c0.tasks _ g
                hg hlook
            · exact Or.inl (by simp [hlook])
        | succ j' =>
            have hj' : rest.get? j' = some c := by simpa [List.get?] using hj
            have hfail' : env.itemsFail (idx + 1 + j') = false := by
              have : idx + 1 + j' = idx + (j' + 1) := by omega
              rw [this]
              exact hfail
            by_cases hf : env.itemsFail idx
            · simp only [pullContainers, hf, if_pos rfl, if_true]
              exact (ih (idx + 1) _).2 j' c hj' hfail' g hg
            · rw [pullContainers, if_neg hf]
              exact (ih (idx + 1) _).2 j' c hj' hfail' g hg

/-- C7: a failing create or update call of one note does not stop the
push loop — every note still gets its call attempted — and a failing
task-listing of one container does not stop the pull loop — every
container is still attempted, and every task of every successfully listed
container is still processed (matched through the reverse index, or
created locally). -/
theorem per_item_errors_contained (s : SysState) (envp : PushEnv)
    (envl : PullEnv) (hnl : noLegacy s.mapping = true)
    (hpl : envp.listFail = false) (hll : envl.listFail = false)
    (hr : s.remote ≠ []) :
    (∀ note ∈ s.fs.notes, ∃ e ∈ (sync_to_google s envp).evs,
        e.isCallFor note = true) ∧
    (∀ c ∈ s.remote,
      Ev.listTasksCall c.id ∈ (sync_from_google s envl).evs) ∧
    ∀ j c, s.remote.get? j = some c → envl.itemsFail j = false →
      ∀ g ∈ c.tasks,
        (lookupA (buildReverse s.mapping) g.id).isSome = true ∨
        Ev.createdLocally g.title ∈ (sync_from_google s envl).evs := by
  rcases hrr : s.remote with _ | ⟨c0, cs⟩
  · exact absurd hrr hr
  · have hab := pushLoop_no_abort envp c0.id c0.title s.fs.notes
      ⟨s.mapping, c0 :: cs, [], 0, 0, false⟩ hnl
    have hpushevs : (sync_to_google s envp).evs =
        (pushLoop envp c0.id c0.title s.fs.notes
          ⟨s.mapping, c0 :: cs, [], 0, 0, false⟩).evs ++ [Ev.saveSyncState] := by
      simp [sync_to_google, hpl, hrr, hab]
    have hpullevs : (sync_from_google s envl).evs =
        (pullContainers envl (buildReverse s.mapping) (c0 :: cs) 0
          ⟨s.fs, s.mapping, []⟩).evs ++ [Ev.saveSyncState] := by
      simp [sync_from_google, hll, hrr]
    obtain ⟨hlist, hproc⟩ := pullContainers_attempts envl
      (buildReverse s.mapping) (c0 :: cs) 0 ⟨s.fs, s.mapping, []⟩
    refine ⟨?_, ?_, ?_⟩
    · intro note hmem
      obtain ⟨e, he, hcall⟩ := pushLoop_attempts_all envp c0.id c0.title
        s.fs.notes ⟨s.mapping, c0 :: cs, [], 0, 0, false⟩ hnl note hmem
      exact ⟨e, by rw [hpushevs]; exact List.mem_append.mpr (Or.inl he), hcall⟩
    · intro c hc
      rw [hpullevs]
      refine List.mem_append.mpr (Or.inl ?_)
      exact hlist c (hrr ▸ hc)
    · intro j c hj hfail g hg
      rcases hproc j c hj (by simpa using hfail) g hg with h | h
      · exact Or.inl h
      · exact Or.inr (by rw [hpullevs]; exact List.mem_append.mpr (Or.inl h))

/-- Witness for C7: a one-note state with every remote create failing;
the note's create is still attempted and the pull pass still visits the
container. -/
theorem per_item_errors_contained_witness :
    noLegacy sysW.mapping = true ∧ envFailW.listFail = false ∧
    envPullW.listFail = false ∧ sysW.remote ≠ [] ∧
    ((∀ note ∈ sysW.fs.notes, ∃ e ∈ (sync_to_google sysW envFailW).evs,
        e.isCallFor note = true) ∧
      (∀ c ∈ sysW.remote,
        Ev.listTasksCall c.id ∈ (sync_from_google sysW envPullW).evs) ∧
      ∀ j c, sysW.remote.get? j = some c → envPullW.itemsFail j = false →
        ∀ g ∈ c.tasks,
          (lookupA (buildReverse sysW.mapping) g.id).isSome = true ∨
          Ev.createdLocally g.title ∈ (sync_from_google sysW envPullW).evs) :=
  ⟨by decide, rfl, rfl, by decide,
    per_item_errors_contained sysW envFailW envPullW (by decide) rfl rfl
      (by decide)⟩

/-! ## Claim C8 — last_sync and a single whole-state persist per pass -/

theorem countSave_append (l l' : List Ev) :
    countSave (l ++ l') = countSave l + countSave l' := by
  induction l with
  | nil => simp [countSave]
  | cons e rest ih =>
      cases e
      all_goals simp [countSave, ih]
      all_goals omega

/-- The push loop itself never calls `save_sync_state`. -/
theorem pushLoop_save_count (env : PushEnv) (dlid dlname : String)
    (notes : List Note) (st : PushSt) :
    countSave (pushLoop env dlid dlname notes st).evs =
      countSave st.evs := by
  induction notes generalizing st with
  | nil => rfl
  | cons note rest ih =>
      rcases hm : lookupA st.mapping note.id with _ | mv
      · rcases hc : env.createRes st.cIdx with _ | g
        · simp only [pushLoop, hm, hc]
          rw [ih]
          simp [countSave_append, countSave]
        · simp only [pushLoop, hm, hc]
          rw [ih]
          simp [countSave_append, countSave]
      · cases mv with
        | legacy t => simp [pushLoop, hm]
        | entry t l n' =>
            simp only [pushLoop, hm]
            rw [ih]
            simp [countSave_append, countSave]

/-- The inner pull loop never calls `save_sync_state`. -/
theorem pullTasks_save_count (rev : List (String × Nat))
    (lid lname now : String) (tasks : List GTask) (st : PullSt) :
    countSave (pullTasks rev lid lname now tasks st).evs =
      countSave st.evs := by
  induction tasks generalizing st with
  | nil => rfl
  | cons g rest ih =>
      rcases hl : lookupA rev g.id with _ | lid'
      · simp only [pullTasks, hl]
        rw [ih]
        simp [countSave_append, countSave]
      · simp only [pullTasks, hl]
        rw [ih]
        by_cases hf : (updateFirst st.fs.notes lid' g now).2 <;>
          simp [hf, countSave_append, countSave]

/-- The outer pull loop never calls `save_sync_state`. -/
theorem pullContainers_save_count (env : PullEnv)
    (rev : List (String × Nat)) (cs : List Container) (idx : Nat)
    (st : PullSt) :
    countSave (pullContainers env rev cs idx st).evs =
      countSave st.evs := by
  induction cs generalizing idx st with
  | nil => rfl
  | cons c rest ih =>
      by_cases hf : env.itemsFail idx
      · simp only [pullContainers, hf, if_pos rfl, if_true]
        rw [ih]
        simp [countSave_append, countSave]
      · rw [pullContainers, if_neg hf]
        rw [ih, pullTasks_save_count]
        simp [countSave_append, countSave]

/-- C8: after the loop of a push pass and of a pull pass (containers
nonempty, enumeration succeeding, no legacy mapping value aborting the
push), `last_sync` is set to the pass's current time and `save_sync_state`
runs exactly once, as the pass's last action — for every environment,
including ones in which items or containers failed; the sync state is
never persisted per item. -/
theorem last_sync_single_persist (s : SysState) (envp : PushEnv)
    (envl : PullEnv) (hnl : noLegacy s.mapping = true)
    (hpl : envp.listFail = false) (hll : envl.listFail = false)
    (hr : s.remote ≠ []) :
    ((sync_to_google s envp).state.last_sync = some envp.now ∧
      countSave (sync_to_google s envp).evs = 1 ∧
      (sync_to_google s envp).evs.getLast? = some Ev.saveSyncState) ∧
    ((sync_from_google s envl).state.last_sync = some envl.now ∧
      countSave (sync_from_google s envl).evs = 1 ∧
      (sync_from_google s envl).evs.getLast? = some Ev.saveSyncState) := by
  rcases hrr : s.remote with _ | ⟨c0, cs⟩
  · exact absurd hrr hr
  · have hab := pushLoop_no_abort envp c0.id c0.title s.fs.notes
      ⟨s.mapping, c0 :: cs, [], 0, 0, false⟩ hnl
    have hpush : sync_to_google s envp =
        ⟨{ s with
            mapping := (pushLoop envp c0.id c0.title s.fs.notes
              ⟨s.mapping, c0 :: cs, [], 0, 0, false⟩).mapping,
            remote := (pushLoop envp c0.id c0.title s.fs.notes
              ⟨s.mapping, c0 :: cs, [], 0, 0, false⟩).remote,
            last_sync := some envp.now },
          (pushLoop envp c0.id c0.title s.fs.notes
            ⟨s.mapping, c0 :: cs, [], 0, 0, false⟩).evs ++
            [Ev.saveSyncState], false⟩ := by
      simp [sync_to_google, hpl, hrr, hab]
    have hpull : sync_from_google s envl =
        ⟨{ s with
            fs := (pullContainers envl (buildReverse s.mapping) (c0 :: cs) 0
              ⟨s.fs, s.mapping, []⟩).fs,
            mapping := (pullContainers envl (buildReverse s.mapping)
              (c0 :: cs) 0 ⟨s.fs, s.mapping, []⟩).mapping,
            last_sync := some envl.now },
          (pullContainers envl (buildReverse s.mapping) (c0 :: cs) 0
            ⟨s.fs, s.mapping, []⟩).evs ++ [Ev.saveSyncState], false⟩ := by
      simp [sync_from_google, hll, hrr]
    rw [hpush, hpull]
    refine ⟨⟨rfl, ?_, ?_⟩, rfl, ?_, ?_⟩
    · rw [countSave_append, pushLoop_save_count]
      rfl
    · exact List.getLast?_concat _
    · rw [countSave_append, pullContainers_save_count]
      rfl
    · exact List.getLast?_concat _

/-- Witness for C8 on a concrete state with a failing create. -/
theorem last_sync_single_persist_witness :
    noLegacy sysW.mapping = true ∧ envFailW.listFail = false ∧
    envPullW.listFail = false ∧ sysW.remote ≠ [] ∧
    (((sync_to_google sysW envFailW).state.last_sync = some envFailW.now ∧
      countSave (sync_to_google sysW envFailW).evs = 1 ∧
      (sync_to_google sysW envFailW).evs.getLast? = some Ev.saveSyncState) ∧
    ((sync_from_google sysW envPullW).state.last_sync = some envPullW.now ∧
      countSave (sync_from_google sysW envPullW).evs = 1 ∧
      (sync_from_google sysW envPullW).evs.getLast? =
        some Ev.saveSyncState)) :=
  ⟨by decide, rfl, rfl, by decide,
    last_sync_single_persist sysW envFailW envPullW (by decide) rfl rfl
      (by decide)⟩

/-! ## Claim C10 — the pull pass persists the store after every task -/

theorem updateFirst_not_found (notes : List Note) (local_id : Nat)
    (g : GTask) (now : String)
    (h : (updateFirst notes local_id g now).2 = false) :
    (updateFirst notes local_id g now).1 = notes := by
  induction notes with
  | nil => rfl
  | cons n rest ih =>
      by_cases hn : n.id = local_id
      · simp [updateFirst, hn] at h
      · simp only [updateFirst, if_neg hn] at h ⊢
        rw [ih h]

/-- `update_local_note` leaves the file equal to the notes list whenever
it was equal before: it either saves after mutating, or does nothing. -/
theorem update_local_note_file (fs : NotesFS) (local_id : Nat) (g : GTask)
    (now : String) (hinit : fs.file = fs.notes) :
    (update_local_note fs local_id g now).file =
      (update_local_note fs local_id g now).notes := by
  by_cases h : (updateFirst fs.notes local_id g now).2
  · simp [update_local_note, h, save_notes]
  · have hf : (updateFirst fs.notes local_id g now).2 = false := by
      simpa using h
    simpa [update_local_note, hf, save_notes,
      updateFirst_not_found fs.notes local_id g now hf] using hinit

/-- `create_local_note` always ends in a `save_notes`. -/
theorem create_local_note_file (fs : NotesFS) (g : GTask) (now : String) :
    (create_local_note fs g now).1.file =
      (create_local_note fs g now).1.notes := by
  by_cases h : g.status = "completed" <;>
    simp [create_local_note, add_note, save_notes, h]

theorem pullTasks_file (rev : List (String × Nat)) (lid lname now : String)
    (tasks : List GTask) (st : PullSt) (hinit : st.fs.file = st.fs.notes) :
    (pullTasks rev lid lname now tasks st).fs.file =
      (pullTasks rev lid lname now tasks st).fs.notes := by
  induction tasks generalizing st with
  | nil => exact hinit
  | cons g rest ih =>
      rcases hl : lookupA rev g.id with _ | lid'
      · simp only [pullTasks, hl]
        exact ih _ (create_local_note_file st.fs g now)
      · simp only [pullTasks, hl]
        exact ih _ (update_local_note_file st.fs lid' g now hinit)

theorem pullContainers_file (env : PullEnv) (rev : List (String × Nat))
    (cs : List Container) (idx : Nat) (st : PullSt)
    (hinit : st.fs.file = st.fs.notes) :
    (pullContainers env rev cs idx st).fs.file =
      (pullContainers env rev cs idx st).fs.notes := by
  induction cs generalizing idx st with
  | nil => exact hinit
  | cons c rest ih =>
      by_cases hf : env.itemsFail idx
      · simp only [pullContainers, hf, if_pos rfl, if_true]
        exact ih _ _ hinit
      · rw [pullContainers, if_neg hf]
        exact ih _ _ (pullTasks_file rev c.id c.title env.now c.tasks _ hinit)

/-- C10: starting from a store whose persisted file equals the in-memory
list, every mutation the pull pass makes (a note created from a remote
task, or an existing note updated) is persisted before the next task is
processed: after any prefix of one container's tasks, and after any
prefix of the container loop, the persisted file equals the in-memory
list. -/
theorem pull_persists_each_task (rev : List (String × Nat))
    (env : PullEnv) (lid lname now : String) (pfx : List GTask)
    (cs : List Container) (idx : Nat) (st : PullSt)
    (hinit : st.fs.file = st.fs.notes) :
    ((pullTasks rev lid lname now pfx st).fs.file =
      (pullTasks rev lid lname now pfx st).fs.notes) ∧
    ((pullContainers env rev cs idx st).fs.file =
      (pullContainers env rev cs idx st).fs.notes) :=
  ⟨pullTasks_file rev lid lname now pfx st hinit,
    pullContainers_file env rev cs idx st hinit⟩

/-- Witness for C10 on a concrete store, task and container. -/
theorem pull_persists_each_task_witness :
    (PullSt.mk nmW [] []).fs.file = (PullSt.mk nmW [] []).fs.notes ∧
    (((pullTasks [] "L0" "My Tasks" "n5" [gtaskW]
        (PullSt.mk nmW [] [])).fs.file =
      (pullTasks [] "L0" "My Tasks" "n5" [gtaskW]
        (PullSt.mk nmW [] [])).fs.notes) ∧
    ((pullContainers envPullW [] [Container.mk "L0" "My Tasks" [gtaskW]] 0
        (PullSt.mk nmW [] [])).fs.file =
      (pullContainers envPullW [] [Container.mk "L0" "My Tasks" [gtaskW]] 0
        (PullSt.mk nmW [] [])).fs.notes)) :=
  ⟨rfl, pull_persists_each_task [] envPullW "L0" "My Tasks" "n5" [gtaskW]
    [Container.mk "L0" "My Tasks" [gtaskW]] 0 (PullSt.mk nmW [] []) rfl⟩

end WaybarNote
